import Mathlib

/-!
Shallow embedding of the JSON serializer in `src/serde2/src/json/ser.rs`
(a push-style visitor turning values into JSON text), together with proofs
about its observable byte output.

Modelling conventions:
* Bytes are `Nat` (the source works on `u8`; every byte written is < 256).
* The sink (`Writer` in the source, instantiated at `MemWriter` by the
  entry points) is `MWriter`: a list of bytes written so far plus an
  optional capacity `budget`.  `budget = none` is the infallible growable
  buffer; `budget = some n` is a sink that rejects (with `IoError.sinkFailure`)
  any write that would grow the data beyond `n` bytes, modelling the
  spec's "append-only byte consumer that can fail".
* `Result<(), IoError>` becomes `MWriter × Option IoError`: the writer
  state paired with `none` on success or `some e` on the first failure.
  The source's `try!` early-return is `bindW`, which stops at the first
  failure and performs no further writes.
-/

namespace SerdeJson

/-- The single error kind of the sink: a rejected write (`IoError` in the
source; the spec calls it SinkFailure). -/
inductive IoError where
  | sinkFailure
deriving DecidableEq, Repr

/-- The byte sink owned by the serializer: bytes written so far, plus an
optional capacity after which writes fail (`none` = never fails, the
`MemWriter` of the entry points). -/
structure MWriter where
  data : List Nat
  budget : Option Nat
deriving DecidableEq, Repr

/-- One sink write (`Writer::write` / `write_str` in the source): appends
the bytes, or fails atomically (leaving the data unchanged) when the
capacity would be exceeded. -/
def wWrite (w : MWriter) (bs : List Nat) : MWriter × Option IoError :=
  match w.budget with
  | none => (⟨w.data ++ bs, none⟩, none)
  | some n =>
    if w.data.length + bs.length ≤ n then (⟨w.data ++ bs, some n⟩, none)
    else (w, some IoError.sinkFailure)

/-- The source's `try!`: continue with the writer on success, propagate the
first error unchanged and do nothing further on failure. -/
def bindW (r : MWriter × Option IoError) (f : MWriter → MWriter × Option IoError)
    : MWriter × Option IoError :=
  match r with
  | (w, none) => f w
  | (w, some e) => (w, some e)

/-- The escape table of `escape_bytes` (lines 174-183 of the source):
`"`→`\"`, `\`→`\\`, 0x08→`\b`, 0x0C→`\f`, 0x0A→`\n`, 0x0D→`\r`,
0x09→`\t`; every other byte is not escaped (`continue`). -/
def escTable (b : Nat) : Option (List Nat) :=
  if b = 34 then some [92, 34]
  else if b = 92 then some [92, 92]
  else if b = 8 then some [92, 98]
  else if b = 12 then some [92, 102]
  else if b = 10 then some [92, 110]
  else if b = 13 then some [92, 114]
  else if b = 9 then some [92, 116]
  else none

/-- Per-byte output of the escaper: the escape sequence for the seven
escapable bytes, the byte itself for every other byte. -/
def escByte (b : Nat) : List Nat :=
  match escTable b with
  | some e => e
  | none => [b]

/-- Byte-for-byte escaped body of a byte sequence (the concatenation of
`escByte` over the input). -/
def escBody : List Nat → List Nat
  | [] => []
  | b :: r => escByte b ++ escBody r

/-- `bytes.slice(start, i)` of the source: the half-open range of bytes. -/
def byteSlice (bs : List Nat) (a b : Nat) : List Nat :=
  (bs.drop a).take (b - a)

/-- The `for (i, byte) in bytes.iter().enumerate()` loop of `escape_bytes`
(lines 171-196): on an escapable byte, flush the pending verbatim run
`bytes[start..i]` when nonempty, write the escape, and continue with
`start = i + 1`; the trailing-run flush `if start != bytes.len()` that the
source performs after the loop is taken here on loop exit. -/
def escLoop (bytes : List Nat) (start i : Nat) (w : MWriter) : MWriter × Option IoError :=
  if h : i < bytes.length then
    match escTable (bytes.get ⟨i, h⟩) with
    | none => escLoop bytes start (i + 1) w
    | some esc =>
      bindW (if start < i then wWrite w (byteSlice bytes start i) else (w, none)) fun w =>
      bindW (wWrite w esc) fun w =>
      escLoop bytes (i + 1) (i + 1) w
  else
    if start ≠ bytes.length then wWrite w (bytes.drop start) else (w, none)
termination_by bytes.length - i
decreasing_by all_goals (simp_wf <;> omega)

/-- `escape_bytes` (lines 167-199 of the source): opening quote, the
escaping loop with its trailing flush, closing quote. -/
def escape_bytes (w : MWriter) (bytes : List Nat) : MWriter × Option IoError :=
  bindW (wWrite w [34]) fun w =>
  bindW (escLoop bytes 0 0 w) fun w =>
  wWrite w [34]

/-- `escape_str` (lines 201-204): escape the UTF-8 bytes of the string. -/
def escape_str (w : MWriter) (s : List Nat) : MWriter × Option IoError :=
  escape_bytes w s

/-- UTF-8 encoding of a Unicode scalar value (what the source's
`char::encode_utf8` writes into the front of the buffer). -/
def utf8Encode (c : Nat) : List Nat :=
  if c < 0x80 then [c]
  else if c < 0x800 then [0xC0 + c / 0x40, 0x80 + c % 0x40]
  else if c < 0x10000 then
    [0xE0 + c / 0x1000, 0x80 + (c / 0x40) % 0x40, 0x80 + c % 0x40]
  else
    [0xF0 + c / 0x40000, 0x80 + (c / 0x1000) % 0x40, 0x80 + (c / 0x40) % 0x40,
      0x80 + c % 0x40]

/-- The buffer passed to `escape_bytes` by `escape_char` (lines 206-211):
a 4-byte buffer initialised to zero, whose front is overwritten with the
UTF-8 encoding of the character; the source passes the WHOLE buffer on,
ignoring the encoded length, so the zero padding is included. -/
def charBuf (c : Char) : List Nat :=
  utf8Encode c.toNat ++ List.replicate (4 - (utf8Encode c.toNat).length) 0

/-- `escape_char` (lines 206-211 of the source): zero-filled 4-byte buffer,
`encode_utf8` into its front, escape the whole buffer. -/
def escape_char (w : MWriter) (c : Char) : MWriter × Option IoError :=
  escape_bytes w (charBuf c)

/-- ASCII decimal digits of a positive natural number, most significant
first (what Rust's `{}` formatting of an unsigned integer emits). -/
def natDigits (n : Nat) : List Nat :=
  if h : n = 0 then [] else natDigits (n / 10) ++ [48 + n % 10]
decreasing_by exact Nat.div_lt_self (Nat.pos_of_ne_zero h) (by omega)

/-- ASCII decimal rendering of a natural number (`0` renders as `"0"`). -/
def natDec (n : Nat) : List Nat :=
  if n = 0 then [48] else natDigits n

/-- ASCII decimal rendering of a signed integer: `-` followed by the
digits of the absolute value for negatives (Rust's `{}` formatting). -/
def intDec (v : Int) : List Nat :=
  if v < 0 then 45 :: natDec v.natAbs else natDec v.natAbs

/-- Literal `null` as bytes. -/
def strNull : List Nat := [110, 117, 108, 108]

/-- Literal `true` as bytes. -/
def strTrue : List Nat := [116, 114, 117, 101]

/-- Literal `false` as bytes. -/
def strFalse : List Nat := [102, 97, 108, 115, 101]

/-- `visit_null` (lines 31-33): writes `null`. -/
def visit_null (w : MWriter) : MWriter × Option IoError :=
  wWrite w strNull

/-- `visit_bool` (lines 36-42): writes `true` or `false`. -/
def visit_bool (w : MWriter) (value : Bool) : MWriter × Option IoError :=
  if value then wWrite w strTrue else wWrite w strFalse

/-- `visit_int` (lines 45-47): `write!("{}", value)`, plain decimal. -/
def visit_int (w : MWriter) (value : Int) : MWriter × Option IoError :=
  wWrite w (intDec value)

/-- `visit_i8` (lines 50-52): identical body to `visit_int`. -/
def visit_i8 (w : MWriter) (value : Int) : MWriter × Option IoError :=
  wWrite w (intDec value)

/-- `visit_i16` (lines 55-57). -/
def visit_i16 (w : MWriter) (value : Int) : MWriter × Option IoError :=
  wWrite w (intDec value)

/-- `visit_i32` (lines 60-62). -/
def visit_i32 (w : MWriter) (value : Int) : MWriter × Option IoError :=
  wWrite w (intDec value)

/-- `visit_i64` (lines 65-67). -/
def visit_i64 (w : MWriter) (value : Int) : MWriter × Option IoError :=
  wWrite w (intDec value)

/-- `visit_uint` (lines 70-72): `write!("{}", value)` on an unsigned. -/
def visit_uint (w : MWriter) (value : Nat) : MWriter × Option IoError :=
  wWrite w (natDec value)

/-- `visit_u8` (lines 75-77). -/
def visit_u8 (w : MWriter) (value : Nat) : MWriter × Option IoError :=
  wWrite w (natDec value)

/-- `visit_u16` (lines 80-82). -/
def visit_u16 (w : MWriter) (value : Nat) : MWriter × Option IoError :=
  wWrite w (natDec value)

/-- `visit_u32` (lines 85-87). -/
def visit_u32 (w : MWriter) (value : Nat) : MWriter × Option IoError :=
  wWrite w (natDec value)

/-- `visit_u64` (lines 90-92). -/
def visit_u64 (w : MWriter) (value : Nat) : MWriter × Option IoError :=
  wWrite w (natDec value)

/-- `visit_char` (lines 100-102): delegates to `escape_char`. -/
def visit_char (w : MWriter) (v : Char) : MWriter × Option IoError :=
  escape_char w v

/-- `visit_str` (lines 105-107): delegates to `escape_str`. -/
def visit_str (w : MWriter) (value : List Nat) : MWriter × Option IoError :=
  escape_str w value

/-- The comma separator written by `visit_seq_elt` / `visit_map_elt`
(lines 129-131 and 157-159): a `,` when the element is not the first. -/
def sep (first : Bool) (w : MWriter) : MWriter × Option IoError :=
  if first then (w, none) else wWrite w [44]

/-- Modelled from the spec: the values that drive the serializer.  The
`Serialize` capability and the derive mechanism are outside `src/`; per
the spec, a value's serialization logic invokes exactly one visit method
per value, sequences and mappings supplying their elements through a
lazy element driver.  One constructor per visit kind the claims use. -/
inductive JValue where
  | jnull
  | jbool (b : Bool)
  | jint (v : Int)
  | juint (n : Nat)
  | jchar (c : Char)
  | jstr (s : List Nat)
  | jseq (xs : List JValue)
  | jmap (kvs : List (JValue × JValue))

mutual

/-- Modelled from the spec: `Serialize::serialize` dispatch — a value
invokes exactly the one visit method of its kind on the serializer. -/
def serialize (w : MWriter) : JValue → MWriter × Option IoError
  | JValue.jnull => visit_null w
  | JValue.jbool b => visit_bool w b
  | JValue.jint v => visit_int w v
  | JValue.juint n => visit_u64 w n
  | JValue.jchar c => visit_char w c
  | JValue.jstr s => visit_str w s
  | JValue.jseq xs => visit_seq w xs
  | JValue.jmap kvs => visit_map w kvs
termination_by v => 2 * sizeOf v
decreasing_by all_goals (simp_wf <;> omega)

/-- `visit_seq` (lines 110-123): write `[`, drive the element visitor to
exhaustion, write `]`.  The driver (a `SeqVisitor` impl outside `src/`,
modelled from the spec) hands each element to `visit_seq_elt` with
`first` true exactly for the first element. -/
def visit_seq (w : MWriter) (xs : List JValue) : MWriter × Option IoError :=
  bindW (wWrite w [91]) fun w =>
  bindW (seqDrive w true xs) fun w =>
  wWrite w [93]
termination_by 2 * sizeOf xs + 1
decreasing_by all_goals (simp_wf <;> omega)

/-- Modelled from the spec: the sequence element driver — invokes
`visit_seq_elt` once per element, `first` true only on the first call. -/
def seqDrive (w : MWriter) (first : Bool) : List JValue → MWriter × Option IoError
  | [] => (w, none)
  | x :: rest =>
    bindW (visit_seq_elt w first x) fun w =>
    seqDrive w false rest
termination_by xs => 2 * sizeOf xs
decreasing_by all_goals (simp_wf <;> omega)

/-- `visit_seq_elt` (lines 126-134): a `,` when not first, then the
element serializes itself through the same serializer. -/
def visit_seq_elt (w : MWriter) (first : Bool) (x : JValue) : MWriter × Option IoError :=
  bindW (sep first w) fun w =>
  serialize w x
termination_by 2 * sizeOf x + 1
decreasing_by all_goals (simp_wf <;> omega)

/-- `visit_map` (lines 137-150): the source writes the two-byte literals
`{{` and `}}` around the driven elements (doubled braces, exactly as in
`write_str("{{")` / `write_str("}}")`). -/
def visit_map (w : MWriter) (kvs : List (JValue × JValue)) : MWriter × Option IoError :=
  bindW (wWrite w [123, 123]) fun w =>
  bindW (mapDrive w true kvs) fun w =>
  wWrite w [125, 125]
termination_by 2 * sizeOf kvs + 1
decreasing_by all_goals (simp_wf <;> omega)

/-- Modelled from the spec: the mapping element driver — invokes
`visit_map_elt` once per key/value pair, `first` true only on the first. -/
def mapDrive (w : MWriter) (first : Bool) : List (JValue × JValue) → MWriter × Option IoError
  | [] => (w, none)
  | (k, v) :: rest =>
    bindW (visit_map_elt w first k v) fun w =>
    mapDrive w false rest
termination_by kvs => 2 * sizeOf kvs
decreasing_by all_goals (simp_wf <;> omega)

/-- `visit_map_elt` (lines 153-164): a `,` when not first, then the key,
a `:`, then the value, each through the same serializer. -/
def visit_map_elt (w : MWriter) (first : Bool) (k v : JValue) : MWriter × Option IoError :=
  bindW (sep first w) fun w =>
  bindW (serialize w k) fun w =>
  bindW (wWrite w [58]) fun w =>
  serialize w v
termination_by 2 * (sizeOf k + sizeOf v) + 1
decreasing_by all_goals (simp_wf <;> omega)

end

mutual

/-- The pure byte output of `serialize` on an infallible sink. -/
def jout : JValue → List Nat
  | JValue.jnull => strNull
  | JValue.jbool b => if b then strTrue else strFalse
  | JValue.jint v => intDec v
  | JValue.juint n => natDec n
  | JValue.jchar c => [34] ++ escBody (charBuf c) ++ [34]
  | JValue.jstr s => [34] ++ escBody s ++ [34]
  | JValue.jseq xs => [91] ++ joutSeq true xs ++ [93]
  | JValue.jmap kvs => [123, 123] ++ joutMap true kvs ++ [125, 125]
termination_by v => 2 * sizeOf v
decreasing_by all_goals (simp_wf <;> omega)

/-- The pure byte output of the driven sequence elements. -/
def joutSeq (first : Bool) : List JValue → List Nat
  | [] => []
  | x :: rest => ((if first then [] else [44]) ++ jout x) ++ joutSeq false rest
termination_by xs => 2 * sizeOf xs + 1
decreasing_by all_goals (simp_wf <;> omega)

/-- The pure byte output of the driven mapping elements. -/
def joutMap (first : Bool) : List (JValue × JValue) → List Nat
  | [] => []
  | (k, v) :: rest =>
    ((if first then [] else [44]) ++ (jout k ++ ([58] ++ jout v))) ++ joutMap false rest
termination_by kvs => 2 * sizeOf kvs + 1
decreasing_by all_goals (simp_wf <;> omega)

end

/-- `to_vec` (lines 220-228): run the serializer over a buffer sink and
return its bytes, or propagate the sink failure.  The source's
`MemWriter` never fails (`budget = none`); the budget parameter keeps the
generic fallible sink of the `Writer` bound observable. -/
def to_vec (budget : Option Nat) (value : JValue) : Except IoError (List Nat) :=
  match serialize ⟨[], budget⟩ value with
  | (w, none) => Except.ok w.data
  | (_, some e) => Except.error e

/-- Is a byte a UTF-8 continuation byte (`0x80-0xBF`)? -/
def isCont (b : Nat) : Bool :=
  0x80 ≤ b && b < 0xC0

/-- Strict UTF-8 validity, as checked by Rust's `String::from_utf8`:
no overlong forms, no surrogates, scalar values at most `U+10FFFF`. -/
def utf8Valid : List Nat → Bool
  | [] => true
  | b :: rest =>
    if b < 0x80 then utf8Valid rest
    else if b < 0xC2 then false
    else if b < 0xE0 then
      match rest with
      | c1 :: r => isCont c1 && utf8Valid r
      | [] => false
    else if b < 0xF0 then
      match rest with
      | c1 :: c2 :: r =>
        (if b = 0xE0 then 0xA0 ≤ c1 && c1 < 0xC0
         else if b = 0xED then 0x80 ≤ c1 && c1 < 0xA0
         else isCont c1) && isCont c2 && utf8Valid r
      | _ => false
    else if b < 0xF5 then
      match rest with
      | c1 :: c2 :: c3 :: r =>
        (if b = 0xF0 then 0x90 ≤ c1 && c1 < 0xC0
         else if b = 0xF4 then 0x80 ≤ c1 && c1 < 0x90
         else isCont c1) && isCont c2 && isCont c3 && utf8Valid r
      | _ => false
    else false

/-- Rust's `String::from_utf8`: the decoded text (same bytes) on valid
UTF-8, otherwise an error carrying the original byte vector. -/
def from_utf8 (bs : List Nat) : Except (List Nat) (List Nat) :=
  if utf8Valid bs then Except.ok bs else Except.error bs

/-- `to_string` (lines 230-236): `to_vec`, then `String::from_utf8` on
the produced bytes; a sink failure in `to_vec` propagates unchanged. -/
def to_string (budget : Option Nat) (value : JValue)
    : Except IoError (Except (List Nat) (List Nat)) :=
  match to_vec budget value with
  | Except.ok bs => Except.ok (from_utf8 bs)
  | Except.error e => Except.error e

/-- The two-character escapes of the escape table, decoded: the byte each
second escape character stands for. -/
def unescTable (b : Nat) : Option Nat :=
  if b = 34 then some 34
  else if b = 92 then some 92
  else if b = 98 then some 8
  else if b = 102 then some 12
  else if b = 110 then some 10
  else if b = 114 then some 13
  else if b = 116 then some 9
  else none

/-- Modelled from the spec: the decoder half of the round-trip property —
replaces each two-character escape `\x` by the byte it stands for and
keeps every other byte. -/
def unescBody : List Nat → List Nat
  | [] => []
  | b :: r =>
    if b = 92 then
      match r with
      | [] => [92]
      | c :: r2 =>
        match unescTable c with
        | some o => o :: unescBody r2
        | none => 92 :: unescBody (c :: r2)
    else b :: unescBody r
termination_by l => l.length
decreasing_by all_goals (simp_wf <;> omega)

/-- Modelled from the spec: decoding a JSON string literal — strip the
surrounding quotes and undo the two-character escapes. -/
def unescape (s : List Nat) : Option (List Nat) :=
  match s with
  | 34 :: rest =>
    if rest.getLast? = some 34 then some (unescBody rest.dropLast) else none
  | _ => none

/-- The behaviour of a writer-transforming step `f` whose full output is
`out`: it preserves the budget; on an infallible sink it appends exactly
`out`; on success it appends exactly `out`; on failure the error is
`sinkFailure` and the data written so far is a prefix of the full output;
the data only ever grows by appending; and it never exceeds a respected
capacity. -/
def Tracks (f : MWriter → MWriter × Option IoError) (out : List Nat) : Prop :=
  ∀ w : MWriter,
    (f w).1.budget = w.budget ∧
    (w.budget = none → f w = (⟨w.data ++ out, none⟩, none)) ∧
    ((f w).2 = none → (f w).1.data = w.data ++ out) ∧
    (∀ e, (f w).2 = some e →
      e = IoError.sinkFailure ∧ ∃ t, w.data ++ out = (f w).1.data ++ t) ∧
    (∃ t, (f w).1.data = w.data ++ t) ∧
    (∀ n, w.budget = some n → w.data.length ≤ n → (f w).1.data.length ≤ n)

theorem tracks_congr {f g : MWriter → MWriter × Option IoError} {out : List Nat}
    (h : ∀ w, f w = g w) (hg : Tracks g out) : Tracks f out := by
  intro w
  rw [h w]
  exact hg w

theorem tracks_out_congr {f : MWriter → MWriter × Option IoError} {a b : List Nat}
    (h : a = b) (hf : Tracks f b) : Tracks f a := h ▸ hf

theorem tracks_wWrite (bs : List Nat) : Tracks (fun w => wWrite w bs) bs := by
  intro w
  rcases hb : w.budget with _ | n
  · simp [Tracks, wWrite, hb]
  · by_cases hle : w.data.length + bs.length ≤ n
    · simp only [wWrite, hb, if_pos hle]
      simp
      omega
    · simp only [wWrite, hb, if_neg hle]
      simp

theorem tracks_pure : Tracks (fun w => (w, none)) [] := by
  intro w
  refine ⟨rfl, ?_, by simp, ?_, ⟨[], by simp⟩, fun n _ h => h⟩
  · intro hn
    cases w
    simp_all
  · intro e he
    simp at he

theorem tracks_bindW {f g : MWriter → MWriter × Option IoError} {a b : List Nat}
    (hf : Tracks f a) (hg : Tracks g b) :
    Tracks (fun w => bindW (f w) g) (a ++ b) := by
  intro w
  obtain ⟨hfb, hfinf, hfok, hferr, hfgrow, hfcap⟩ := hf w
  match hr : f w with
  | (w1, none) =>
    have hw1data : w1.data = w.data ++ a := by
      have := hfok (by rw [hr]); rwa [hr] at this
    have hw1b : w1.budget = w.budget := by rw [hr] at hfb; exact hfb
    obtain ⟨hgb, hginf, hgok, hgerr, hggrow, hgcap⟩ := hg w1
    have hbind : bindW (f w) g = g w1 := by rw [hr]; rfl
    rw [show (fun w => bindW (f w) g) w = g w1 from hbind]
    refine ⟨by rw [hgb, hw1b], ?_, ?_, ?_, ?_, ?_⟩
    · intro hn
      rw [hginf (by rw [hw1b, hn]), hw1data, List.append_assoc]
    · intro hok
      rw [hgok hok, hw1data, List.append_assoc]
    · intro e he
      obtain ⟨he1, t, ht⟩ := hgerr e he
      exact ⟨he1, ⟨t, by rw [← ht, hw1data, List.append_assoc]⟩⟩
    · obtain ⟨t, ht⟩ := hggrow
      exact ⟨a ++ t, by rw [ht, hw1data, List.append_assoc]⟩
    · intro n hn hlen
      have h1 : w1.data.length ≤ n := by
        have := hfcap n hn hlen; rwa [hr] at this
      exact hgcap n (by rw [hw1b, hn]) h1
  | (w1, some e) =>
    have hbind : bindW (f w) g = (w1, some e) := by rw [hr]; rfl
    rw [show (fun w => bindW (f w) g) w = (w1, some e) from hbind]
    obtain ⟨he1, t, ht⟩ := hferr e (by rw [hr])
    rw [hr] at hfb hfgrow hfcap
    simp only at hfb hfgrow hfcap ht
    refine ⟨hfb, ?_, by simp, ?_, hfgrow, hfcap⟩
    · intro hn
      have := hfinf hn
      rw [hr] at this
      simp at this
    · intro e2 he2
      have he2' : e = e2 := by simpa using he2
      subst he2'
      rw [hr] at ht
      refine ⟨he1, ⟨t ++ b, ?_⟩⟩
      simp only at ht ⊢
      rw [← List.append_assoc, ht, List.append_assoc]

/-- The pure byte output of `escLoop`: the flushed verbatim runs and
escape sequences it writes, in order. -/
def escLoopOut (bytes : List Nat) (start i : Nat) : List Nat :=
  if h : i < bytes.length then
    match escTable (bytes.get ⟨i, h⟩) with
    | none => escLoopOut bytes start (i + 1)
    | some esc =>
      (if start < i then byteSlice bytes start i else []) ++
        (esc ++ escLoopOut bytes (i + 1) (i + 1))
  else
    if start ≠ bytes.length then bytes.drop start else []
termination_by bytes.length - i
decreasing_by all_goals (simp_wf <;> omega)

theorem tracks_escLoop_exit (bytes : List Nat) (start i : Nat)
    (hi : ¬ i < bytes.length) :
    Tracks (escLoop bytes start i) (escLoopOut bytes start i) := by
  have ho : escLoopOut bytes start i =
      if start ≠ bytes.length then bytes.drop start else [] := by
    rw [escLoopOut.eq_def, dif_neg hi]
  have hu : ∀ w, escLoop bytes start i w =
      if start ≠ bytes.length then wWrite w (bytes.drop start) else (w, none) := by
    intro w; rw [escLoop.eq_def, dif_neg hi]
  rw [ho]
  refine tracks_congr hu ?_
  by_cases hs : start ≠ bytes.length
  · rw [if_pos hs]
    exact tracks_congr (fun w => by rw [if_pos hs]) (tracks_wWrite _)
  · rw [if_neg hs]
    exact tracks_congr (fun w => by rw [if_neg hs]) tracks_pure

theorem tracks_escLoop (bytes : List Nat) :
    ∀ k start i, bytes.length - i ≤ k →
      Tracks (escLoop bytes start i) (escLoopOut bytes start i) := by
  intro k
  induction k with
  | zero =>
    intro start i hk
    exact tracks_escLoop_exit bytes start i (by omega)
  | succ k ih =>
    intro start i hk
    by_cases hi : i < bytes.length
    · match hesc : escTable (bytes.get ⟨i, hi⟩) with
      | none =>
        have ho : escLoopOut bytes start i = escLoopOut bytes start (i + 1) := by
          rw [escLoopOut.eq_def, dif_pos hi, hesc]
        have hu : ∀ w, escLoop bytes start i w = escLoop bytes start (i + 1) w := by
          intro w; rw [escLoop.eq_def, dif_pos hi, hesc]
        rw [ho]
        exact tracks_congr hu (ih start (i + 1) (by omega))
      | some esc =>
        have ho : escLoopOut bytes start i =
            (if start < i then byteSlice bytes start i else []) ++
              (esc ++ escLoopOut bytes (i + 1) (i + 1)) := by
          rw [escLoopOut.eq_def, dif_pos hi, hesc]
        have hu : ∀ w, escLoop bytes start i w =
            bindW (if start < i then wWrite w (byteSlice bytes start i) else (w, none))
              fun w => bindW (wWrite w esc) fun w => escLoop bytes (i + 1) (i + 1) w := by
          intro w; rw [escLoop.eq_def, dif_pos hi, hesc]
        rw [ho]
        refine tracks_congr hu (tracks_bindW ?_ (tracks_bindW (tracks_wWrite esc)
          (ih (i + 1) (i + 1) (by omega))))
        by_cases hlt : start < i
        · rw [if_pos hlt]
          exact tracks_congr (fun w => by rw [if_pos hlt]) (tracks_wWrite _)
        · rw [if_neg hlt]
          exact tracks_congr (fun w => by rw [if_neg hlt]) tracks_pure
    · exact tracks_escLoop_exit bytes start i hi

theorem escBody_append (a b : List Nat) : escBody (a ++ b) = escBody a ++ escBody b := by
  induction a with
  | nil => rfl
  | cons x r ih => simp [escBody, ih]

theorem escBody_clean (l : List Nat) (h : ∀ b ∈ l, escTable b = none) : escBody l = l := by
  induction l with
  | nil => rfl
  | cons x r ih =>
    have hx : escTable x = none := h x (by simp)
    simp [escBody, escByte, hx, ih (fun b hb => h b (by simp [hb]))]

theorem drop_eq_slice_append (bytes : List Nat) (start i : Nat) (h1 : start ≤ i) :
    bytes.drop start = byteSlice bytes start i ++ List.drop i bytes := by
  unfold byteSlice
  have h2 : List.drop i bytes = List.drop (i - start) (List.drop start bytes) := by
    rw [List.drop_drop]
    congr 1
    omega
  rw [h2, List.take_append_drop]

theorem byteSlice_succ (bytes : List Nat) (start i : Nat) (h1 : start ≤ i)
    (h2 : i < bytes.length) :
    byteSlice bytes start (i + 1) = byteSlice bytes start i ++ [bytes.get ⟨i, h2⟩] := by
  unfold byteSlice
  have he : i + 1 - start = (i - start) + 1 := by omega
  rw [he, List.take_succ]
  congr 1
  rw [List.getElem?_drop]
  have h3 : start + (i - start) = i := by omega
  rw [h3]
  simp [List.getElem?_eq_getElem h2]

theorem byteSlice_self (bytes : List Nat) (i : Nat) : byteSlice bytes i i = [] := by
  simp [byteSlice]

theorem ite_byteSlice (bytes : List Nat) (start i : Nat) (h1 : start ≤ i) :
    (if start < i then byteSlice bytes start i else []) = byteSlice bytes start i := by
  by_cases hlt : start < i
  · rw [if_pos hlt]
  · rw [if_neg hlt]
    have : start = i := by omega
    rw [this, byteSlice_self]

theorem escLoopOut_clean_exit (bytes : List Nat) (start i : Nat)
    (hi : ¬ i < bytes.length) (h1 : start ≤ i)
    (hclean : ∀ b ∈ byteSlice bytes start i, escTable b = none) :
    escLoopOut bytes start i = escBody (bytes.drop start) := by
  have hslice : byteSlice bytes start i = bytes.drop start := by
    unfold byteSlice
    apply List.take_of_length_le
    simp
    omega
  rw [escLoopOut.eq_def, dif_neg hi]
  rw [hslice] at hclean
  rw [escBody_clean (bytes.drop start) hclean]
  by_cases hs : start ≠ bytes.length
  · rw [if_pos hs]
  · rw [if_neg hs]
    push_neg at hs
    rw [hs]
    simp

theorem escLoopOut_clean (bytes : List Nat) :
    ∀ k start i, bytes.length - i ≤ k → start ≤ i →
      (∀ b ∈ byteSlice bytes start i, escTable b = none) →
      escLoopOut bytes start i = escBody (bytes.drop start) := by
  intro k
  induction k with
  | zero =>
    intro start i hk h1 hclean
    exact escLoopOut_clean_exit bytes start i (by omega) h1 hclean
  | succ k ih =>
    intro start i hk h1 hclean
    by_cases hi : i < bytes.length
    · have hdrop : List.drop i bytes = bytes.get ⟨i, hi⟩ :: List.drop (i + 1) bytes := by
        rw [List.drop_eq_getElem_cons hi]
        rfl
      match hesc : escTable (bytes.get ⟨i, hi⟩) with
      | none =>
        have ho : escLoopOut bytes start i = escLoopOut bytes start (i + 1) := by
          rw [escLoopOut.eq_def, dif_pos hi, hesc]
        rw [ho]
        apply ih start (i + 1) (by omega) (by omega)
        rw [byteSlice_succ bytes start i h1 hi]
        intro b hb
        rcases List.mem_append.mp hb with h | h
        · exact hclean b h
        · simp at h
          rw [h]
          exact hesc
      | some esc =>
        have ho : escLoopOut bytes start i =
            (if start < i then byteSlice bytes start i else []) ++
              (esc ++ escLoopOut bytes (i + 1) (i + 1)) := by
          rw [escLoopOut.eq_def, dif_pos hi, hesc]
        have hrec : escLoopOut bytes (i + 1) (i + 1) = escBody (List.drop (i + 1) bytes) :=
          ih (i + 1) (i + 1) (by omega) (by omega)
            (by rw [byteSlice_self]; intro b hb; exact absurd hb (List.not_mem_nil b))
        rw [ho, ite_byteSlice bytes start i h1, hrec]
        rw [drop_eq_slice_append bytes start i h1, escBody_append, hdrop]
        rw [escBody_clean (byteSlice bytes start i) hclean]
        have hesc2 : escTable bytes[i] = some esc := by simpa using hesc
        simp [escBody, escByte, hesc2]
    · exact escLoopOut_clean_exit bytes start i hi h1 hclean

/-- Full behaviour of `escape_bytes`: it writes exactly an opening quote,
the per-byte escaped body, and a closing quote. -/
theorem tracks_escape_bytes (bytes : List Nat) :
    Tracks (fun w => escape_bytes w bytes) ([34] ++ (escBody bytes ++ [34])) := by
  have hloop : escLoopOut bytes 0 0 = escBody bytes := by
    have := escLoopOut_clean bytes bytes.length 0 0 (by omega) (by omega)
      (by rw [byteSlice_self]; intro b hb; exact absurd hb (List.not_mem_nil b))
    simpa using this
  have := tracks_bindW (tracks_wWrite [34])
    (tracks_bindW (tracks_escLoop bytes bytes.length 0 0 (by omega)) (tracks_wWrite [34]))
  rw [hloop] at this
  exact this

theorem tracks_sep (first : Bool) :
    Tracks (sep first) (if first then [] else [44]) := by
  cases first
  · exact tracks_congr (fun w => rfl) (tracks_wWrite [44])
  · exact tracks_congr (fun w => rfl) tracks_pure

theorem tracks_visit_null : Tracks visit_null strNull :=
  tracks_congr (fun w => rfl) (tracks_wWrite strNull)

theorem tracks_visit_bool (b : Bool) :
    Tracks (fun w => visit_bool w b) (if b then strTrue else strFalse) := by
  cases b
  · exact tracks_congr (fun w => rfl) (tracks_wWrite strFalse)
  · exact tracks_congr (fun w => rfl) (tracks_wWrite strTrue)

theorem tracks_visit_int (v : Int) : Tracks (fun w => visit_int w v) (intDec v) :=
  tracks_congr (fun w => rfl) (tracks_wWrite (intDec v))

theorem tracks_visit_u64 (n : Nat) : Tracks (fun w => visit_u64 w n) (natDec n) :=
  tracks_congr (fun w => rfl) (tracks_wWrite (natDec n))

theorem tracks_visit_char (c : Char) :
    Tracks (fun w => visit_char w c) ([34] ++ (escBody (charBuf c) ++ [34])) :=
  tracks_escape_bytes (charBuf c)

theorem tracks_visit_str (s : List Nat) :
    Tracks (fun w => visit_str w s) ([34] ++ (escBody s ++ [34])) :=
  tracks_escape_bytes s

theorem tracks_serialize_aux : ∀ N : Nat,
    (∀ v : JValue, 2 * sizeOf v ≤ N → Tracks (fun w => serialize w v) (jout v)) ∧
    (∀ (first : Bool) (xs : List JValue), 2 * sizeOf xs ≤ N →
      Tracks (fun w => seqDrive w first xs) (joutSeq first xs)) ∧
    (∀ (first : Bool) (kvs : List (JValue × JValue)), 2 * sizeOf kvs ≤ N →
      Tracks (fun w => mapDrive w first kvs) (joutMap first kvs)) := by
  intro N
  induction N using Nat.strong_induction_on with
  | _ N ih =>
    refine ⟨?_, ?_, ?_⟩
    · intro v hv
      match v with
      | JValue.jnull =>
        exact tracks_out_congr (by simp only [jout])
          (tracks_congr (fun w => by simp only [serialize]) tracks_visit_null)
      | JValue.jbool b =>
        exact tracks_out_congr (by simp only [jout])
          (tracks_congr (fun w => by simp only [serialize]) (tracks_visit_bool b))
      | JValue.jint i =>
        exact tracks_out_congr (by simp only [jout])
          (tracks_congr (fun w => by simp only [serialize]) (tracks_visit_int i))
      | JValue.juint n =>
        exact tracks_out_congr (by simp only [jout])
          (tracks_congr (fun w => by simp only [serialize]) (tracks_visit_u64 n))
      | JValue.jchar c =>
        refine tracks_out_congr ?_
          (tracks_congr (fun w => by simp only [serialize]) (tracks_visit_char c))
        simp only [jout]
        rw [List.append_assoc]
      | JValue.jstr s =>
        refine tracks_out_congr ?_
          (tracks_congr (fun w => by simp only [serialize]) (tracks_visit_str s))
        simp only [jout]
        rw [List.append_assoc]
      | JValue.jseq xs =>
        have hsz : 2 * sizeOf xs < N := by
          have : sizeOf (JValue.jseq xs) = 1 + sizeOf xs := by simp
          omega
        have hseq : Tracks (fun w => seqDrive w true xs) (joutSeq true xs) :=
          (ih (2 * sizeOf xs) hsz).2.1 true xs le_rfl
        refine tracks_out_congr ?_
          (tracks_congr (fun w => by simp only [serialize, visit_seq])
            (tracks_bindW (tracks_wWrite [91]) (tracks_bindW hseq (tracks_wWrite [93]))))
        simp only [jout]
        rw [List.append_assoc]
      | JValue.jmap kvs =>
        have hsz : 2 * sizeOf kvs < N := by
          have : sizeOf (JValue.jmap kvs) = 1 + sizeOf kvs := by simp
          omega
        have hmap : Tracks (fun w => mapDrive w true kvs) (joutMap true kvs) :=
          (ih (2 * sizeOf kvs) hsz).2.2 true kvs le_rfl
        refine tracks_out_congr ?_
          (tracks_congr (fun w => by simp only [serialize, visit_map])
            (tracks_bindW (tracks_wWrite [123, 123])
              (tracks_bindW hmap (tracks_wWrite [125, 125]))))
        simp only [jout]
        rw [List.append_assoc]
    · intro first xs hxs
      match xs with
      | [] =>
        exact tracks_out_congr (by simp only [joutSeq])
          (tracks_congr (fun w => by simp only [seqDrive]) tracks_pure)
      | x :: rest =>
        have hszx : 2 * sizeOf x < N := by
          have : sizeOf (x :: rest) = 1 + sizeOf x + sizeOf rest := by simp
          have hp : 0 < sizeOf rest := by cases rest <;> simp
          omega
        have hszr : 2 * sizeOf rest < N := by
          have : sizeOf (x :: rest) = 1 + sizeOf x + sizeOf rest := by simp
          have hp : 0 < sizeOf x := by cases x <;> simp
          omega
        have hx : Tracks (fun w => serialize w x) (jout x) :=
          (ih (2 * sizeOf x) hszx).1 x le_rfl
        have hrest : Tracks (fun w => seqDrive w false rest) (joutSeq false rest) :=
          (ih (2 * sizeOf rest) hszr).2.1 false rest le_rfl
        have helt : Tracks (fun w => visit_seq_elt w first x)
            ((if first then [] else [44]) ++ jout x) :=
          tracks_congr (fun w => by simp only [visit_seq_elt])
            (tracks_bindW (tracks_sep first) hx)
        exact tracks_out_congr (by simp only [joutSeq])
          (tracks_congr (fun w => by simp only [seqDrive])
            (tracks_bindW helt hrest))
    · intro first kvs hkvs
      match kvs with
      | [] =>
        exact tracks_out_congr (by simp only [joutMap])
          (tracks_congr (fun w => by simp only [mapDrive]) tracks_pure)
      | (k, v) :: rest =>
        have hszkv : 2 * sizeOf k < N ∧ 2 * sizeOf v < N ∧ 2 * sizeOf rest < N := by
          have h1 : sizeOf ((k, v) :: rest) = 1 + sizeOf (k, v) + sizeOf rest := by simp
          have h2 : sizeOf (k, v) = 1 + sizeOf k + sizeOf v := by simp
          have hpk : 0 < sizeOf k := by cases k <;> simp
          have hpv : 0 < sizeOf v := by cases v <;> simp
          omega
        have hk : Tracks (fun w => serialize w k) (jout k) :=
          (ih (2 * sizeOf k) hszkv.1).1 k le_rfl
        have hv2 : Tracks (fun w => serialize w v) (jout v) :=
          (ih (2 * sizeOf v) hszkv.2.1).1 v le_rfl
        have hrest : Tracks (fun w => mapDrive w false rest) (joutMap false rest) :=
          (ih (2 * sizeOf rest) hszkv.2.2).2.2 false rest le_rfl
        have helt : Tracks (fun w => visit_map_elt w first k v)
            ((if first then [] else [44]) ++ (jout k ++ ([58] ++ jout v))) :=
          tracks_congr (fun w => by simp only [visit_map_elt])
            (tracks_bindW (tracks_sep first)
              (tracks_bindW hk (tracks_bindW (tracks_wWrite [58]) hv2)))
        exact tracks_out_congr (by simp only [joutMap])
          (tracks_congr (fun w => by simp only [mapDrive])
            (tracks_bindW helt hrest))

/-- The serializer tracks its pure output `jout` on every value. -/
theorem tracks_serialize (v : JValue) : Tracks (fun w => serialize w v) (jout v) :=
  (tracks_serialize_aux (2 * sizeOf v)).1 v le_rfl

/-- On the infallible buffer sink, `serialize` succeeds and appends
exactly `jout v` to whatever the sink already holds. -/
theorem serialize_unbounded (v : JValue) (d : List Nat) :
    serialize ⟨d, none⟩ v = (⟨d ++ jout v, none⟩, none) :=
  ((tracks_serialize v) ⟨d, none⟩).2.1 rfl

theorem natDigits_mem (n : Nat) : ∀ b ∈ natDigits n, 48 ≤ b ∧ b ≤ 57 := by
  induction n using Nat.strong_induction_on with
  | _ n ih =>
    intro b hb
    rw [natDigits.eq_def] at hb
    by_cases h : n = 0
    · rw [dif_pos h] at hb
      simp at hb
    · rw [dif_neg h] at hb
      rcases List.mem_append.mp hb with h1 | h1
      · exact ih (n / 10) (Nat.div_lt_self (Nat.pos_of_ne_zero h) (by omega)) b h1
      · simp at h1
        have h2 : n % 10 < 10 := Nat.mod_lt n (by omega)
        omega

theorem natDigits_head (n : Nat) (h : n ≠ 0) :
    ∃ d r, natDigits n = d :: r ∧ 49 ≤ d ∧ d ≤ 57 := by
  induction n using Nat.strong_induction_on with
  | _ n ih =>
    rw [natDigits.eq_def, dif_neg h]
    by_cases h10 : n / 10 = 0
    · rw [h10, natDigits.eq_def, dif_pos rfl]
      have hlt : n < 10 := by omega
      have hmod : n % 10 = n := Nat.mod_eq_of_lt hlt
      refine ⟨48 + n % 10, [], by simp, by omega, by omega⟩
    · obtain ⟨d, r, hdr, hd1, hd2⟩ :=
        ih (n / 10) (Nat.div_lt_self (Nat.pos_of_ne_zero h) (by omega)) h10
      exact ⟨d, r ++ [48 + n % 10], by rw [hdr]; rfl, hd1, hd2⟩

theorem natDec_mem (n : Nat) : ∀ b ∈ natDec n, 48 ≤ b ∧ b ≤ 57 := by
  unfold natDec
  by_cases h : n = 0
  · rw [if_pos h]
    intro b hb
    simp at hb
    omega
  · rw [if_neg h]
    exact natDigits_mem n

theorem natDec_ne_nil (n : Nat) : natDec n ≠ [] := by
  unfold natDec
  by_cases h : n = 0
  · rw [if_pos h]
    simp
  · rw [if_neg h]
    obtain ⟨d, r, hdr, _, _⟩ := natDigits_head n h
    rw [hdr]
    simp

theorem natDec_no_leading_zero (n : Nat) (h : n ≠ 0) :
    ∀ d ∈ (natDec n).head?, 49 ≤ d ∧ d ≤ 57 := by
  unfold natDec
  rw [if_neg h]
  obtain ⟨d, r, hdr, hd1, hd2⟩ := natDigits_head n h
  rw [hdr]
  intro x hx
  simp at hx
  omega

/-- The trailing part of a comma-separated join: `,` before every item. -/
def commaTail : List (List Nat) → List Nat
  | [] => []
  | l :: rest => ([44] ++ l) ++ commaTail rest

/-- Comma-separated join of byte strings: no leading, trailing, or
doubled separators. -/
def commaJoin : List (List Nat) → List Nat
  | [] => []
  | l :: rest => l ++ commaTail rest

theorem joutSeq_false (xs : List JValue) :
    joutSeq false xs = commaTail (xs.map jout) := by
  induction xs with
  | nil => rw [joutSeq.eq_def]; rfl
  | cons x rest ih =>
    rw [joutSeq.eq_def]
    simp only [List.map_cons, commaTail, if_neg (by simp : ¬ false = true)]
    rw [ih]

theorem joutSeq_true (xs : List JValue) :
    joutSeq true xs = commaJoin (xs.map jout) := by
  match xs with
  | [] => rw [joutSeq.eq_def]; rfl
  | x :: rest =>
    rw [joutSeq.eq_def]
    simp only [List.map_cons, commaJoin, if_pos rfl]
    rw [joutSeq_false rest]
    simp

/-- The rendered bytes of one key/value pair: key, `:`, value. -/
def kvOut (p : JValue × JValue) : List Nat :=
  jout p.1 ++ ([58] ++ jout p.2)

theorem joutMap_false (kvs : List (JValue × JValue)) :
    joutMap false kvs = commaTail (kvs.map kvOut) := by
  induction kvs with
  | nil => rw [joutMap.eq_def]; rfl
  | cons kv rest ih =>
    match kv with
    | (k, v) =>
      rw [joutMap.eq_def]
      simp only [List.map_cons, commaTail, if_neg (by simp : ¬ false = true)]
      rw [ih]
      rfl

theorem joutMap_true (kvs : List (JValue × JValue)) :
    joutMap true kvs = commaJoin (kvs.map kvOut) := by
  match kvs with
  | [] => rw [joutMap.eq_def]; rfl
  | (k, v) :: rest =>
    rw [joutMap.eq_def]
    simp only [List.map_cons, commaJoin, if_pos rfl]
    rw [joutMap_false rest]
    simp [kvOut]

theorem unesc_escByte (c : Nat) (t : List Nat) :
    unescBody (escByte c ++ t) = c :: unescBody t := by
  unfold escByte
  match hesc : escTable c with
  | some e =>
    have hx : ∃ x, e = [92, x] ∧ unescTable x = some c := by
      unfold escTable at hesc
      split_ifs at hesc with h1 h2 h3 h4 h5 h6 h7
      · injection hesc with he; exact ⟨34, he.symm, by rw [h1]; rfl⟩
      · injection hesc with he; exact ⟨92, he.symm, by rw [h2]; rfl⟩
      · injection hesc with he; exact ⟨98, he.symm, by rw [h3]; rfl⟩
      · injection hesc with he; exact ⟨102, he.symm, by rw [h4]; rfl⟩
      · injection hesc with he; exact ⟨110, he.symm, by rw [h5]; rfl⟩
      · injection hesc with he; exact ⟨114, he.symm, by rw [h6]; rfl⟩
      · injection hesc with he; exact ⟨116, he.symm, by rw [h7]; rfl⟩
    obtain ⟨x, hex, hux⟩ := hx
    subst hex
    rw [unescBody.eq_def]
    simp [hux]
  | none =>
    have hc : ¬ c = 92 := by
      intro hceq
      subst hceq
      simp [escTable] at hesc
    rw [unescBody.eq_def]
    simp [hc]

theorem unescBody_escBody (b : List Nat) : unescBody (escBody b) = b := by
  induction b with
  | nil => rw [show escBody [] = [] from rfl, unescBody.eq_def]
  | cons c r ih =>
    simp only [escBody]
    rw [unesc_escByte, ih]

theorem unescape_quoted (b : List Nat) :
    unescape ([34] ++ (escBody b ++ [34])) = some b := by
  have h1 : [34] ++ (escBody b ++ [34]) = 34 :: (escBody b ++ [34]) := rfl
  rw [h1, unescape]
  rw [if_pos (List.getLast?_concat (escBody b))]
  rw [List.dropLast_concat, unescBody_escBody]

theorem to_vec_unbounded (v : JValue) : to_vec none v = Except.ok (jout v) := by
  unfold to_vec
  rw [serialize_unbounded v []]
  rfl

theorem to_string_unbounded (v : JValue) :
    to_string none v = Except.ok (from_utf8 (jout v)) := by
  unfold to_string
  rw [to_vec_unbounded v]

/-- Claim C1 (refuted, code bug): the source's `visit_map` writes the
two-byte literals `{{` and `}}` around the driven elements, so the empty
mapping renders as the four bytes `{{}}` rather than the two bytes `{}`
the claim states. -/
theorem visit_map_empty_doubled_braces :
    to_vec none (JValue.jmap []) = Except.ok [123, 123, 125, 125] ∧
    to_vec none (JValue.jmap []) ≠ Except.ok [123, 125] := by
  have h : to_vec none (JValue.jmap []) = Except.ok [123, 123, 125, 125] := by
    simp [to_vec, serialize, visit_map, mapDrive, bindW, wWrite]
  refine ⟨h, ?_⟩
  rw [h]
  intro hcontra
  simp at hcontra

/-- Claim C2 (refuted, code bug): `escape_char` passes the whole zero
initialised 4-byte buffer to `escape_bytes`, ignoring the encoded length,
so a one-byte character such as `a` is serialized with three NUL padding
bytes inside the quotes rather than as the one-character string the claim
states. -/
theorem visit_char_padded_nuls :
    to_vec none (JValue.jchar 'a') = Except.ok [34, 97, 0, 0, 0, 34] ∧
    to_vec none (JValue.jchar 'a') ≠ Except.ok [34, 97, 34] := by
  have h : to_vec none (JValue.jchar 'a') = Except.ok [34, 97, 0, 0, 0, 34] := by
    rw [to_vec_unbounded]
    simp [jout, charBuf, utf8Encode, escBody, escByte, escTable]
  refine ⟨h, ?_⟩
  rw [h]
  intro hcontra
  simp at hcontra

/-- Claim C3: decoding the escaper's output — stripping the surrounding
quotes and undoing each two-character escape — recovers the input byte
sequence exactly, for every byte sequence. -/
theorem unescape_escape_roundtrip (b : List Nat) :
    unescape ((escape_bytes ⟨[], none⟩ b).1.data) = some b := by
  have h := ((tracks_escape_bytes b) ⟨[], none⟩).2.1 rfl
  rw [show (escape_bytes ⟨[], none⟩ b) =
    (⟨[] ++ ([34] ++ (escBody b ++ [34])), none⟩, none) from h]
  simpa using unescape_quoted b

/-- Claim C4: `escape_bytes` emits an opening quote, each input byte in
order with exactly the seven tabled replacements applied and every other
byte verbatim, and a closing quote; a byte sequence without escapable
bytes passes through unchanged apart from the quotes. -/
theorem escape_bytes_per_byte :
    (∀ (d b : List Nat),
      escape_bytes ⟨d, none⟩ b = (⟨d ++ ([34] ++ (escBody b ++ [34])), none⟩, none)) ∧
    escTable 34 = some [92, 34] ∧ escTable 92 = some [92, 92] ∧
    escTable 8 = some [92, 98] ∧ escTable 12 = some [92, 102] ∧
    escTable 10 = some [92, 110] ∧ escTable 13 = some [92, 114] ∧
    escTable 9 = some [92, 116] ∧
    (∀ c, escTable c = none → escByte c = [c]) ∧
    (∀ b, (∀ c ∈ b, escTable c = none) → escBody b = b) := by
  refine ⟨?_, by decide, by decide, by decide, by decide, by decide, by decide,
    by decide, ?_, fun b hb => escBody_clean b hb⟩
  · intro d b
    exact ((tracks_escape_bytes b) ⟨d, none⟩).2.1 rfl
  · intro c hc
    simp [escByte, hc]

theorem escape_bytes_per_byte_witness :
    escape_bytes ⟨[], none⟩ [104, 101, 108, 108, 111] =
      (⟨[34, 104, 101, 108, 108, 111, 34], none⟩, none) ∧
    escByte 104 = [104] ∧
    escBody [104, 101, 108, 108, 111] = [104, 101, 108, 108, 111] := by
  refine ⟨?_, ?_, ?_⟩
  · rw [escape_bytes_per_byte.1 [] [104, 101, 108, 108, 111]]
    simp [escBody, escByte, escTable]
  · exact escape_bytes_per_byte.2.2.2.2.2.2.2.2.1 104 (by decide)
  · exact escape_bytes_per_byte.2.2.2.2.2.2.2.2.2 [104, 101, 108, 108, 111] (by decide)

/-- Claim C6: `visit_seq` writes `[`, then the driven elements with a `,`
exactly before each non-first element, then `]`; the empty sequence
renders as `[]` and the sequence 1,2,3 renders as `[1,2,3]` with no
spaces and no trailing comma. -/
theorem visit_seq_renders_array :
    (∀ xs : List JValue,
      jout (JValue.jseq xs) = ([91] ++ commaJoin (xs.map jout)) ++ [93]) ∧
    (∀ (xs : List JValue) (d : List Nat),
      serialize ⟨d, none⟩ (JValue.jseq xs) =
        (⟨d ++ jout (JValue.jseq xs), none⟩, none)) ∧
    to_vec none (JValue.jseq []) = Except.ok [91, 93] ∧
    to_vec none (JValue.jseq [JValue.jint 1, JValue.jint 2, JValue.jint 3]) =
      Except.ok [91, 49, 44, 50, 44, 51, 93] := by
  refine ⟨?_, fun xs d => serialize_unbounded _ d, ?_, ?_⟩
  · intro xs
    rw [show jout (JValue.jseq xs) = ([91] ++ joutSeq true xs) ++ [93] from by
      simp only [jout]]
    rw [joutSeq_true]
  · rw [to_vec_unbounded]
    simp [jout, joutSeq]
  · rw [to_vec_unbounded]
    simp [jout, joutSeq, sep, intDec, natDec, natDigits]

/-- Claim C7: when a sink write is rejected during serialization, the
result is that same `sinkFailure` error, `to_vec` surfaces it to its
caller, and the bytes accepted by the sink are a prefix of the full
output, within the sink's capacity — nothing is written past the failing
write. -/
theorem sink_failure_aborts (v : JValue) (n : Nat) (e : IoError)
    (h : (serialize ⟨[], some n⟩ v).2 = some e) :
    e = IoError.sinkFailure ∧
    to_vec (some n) v = Except.error e ∧
    (∃ t, jout v = (serialize ⟨[], some n⟩ v).1.data ++ t) ∧
    (serialize ⟨[], some n⟩ v).1.data.length ≤ n := by
  obtain ⟨hb, hinf, hok, herr, hgrow, hcap⟩ := (tracks_serialize v) ⟨[], some n⟩
  obtain ⟨he, t, ht⟩ := herr e h
  refine ⟨he, ?_, ⟨t, by simpa using ht⟩, hcap n rfl (by simp)⟩
  unfold to_vec
  rcases hs : serialize ⟨[], some n⟩ v with ⟨w1, r⟩
  rw [hs] at h
  simp only at h
  subst h
  rfl

theorem sink_failure_aborts_witness :
    to_vec (some 0) JValue.jnull = Except.error IoError.sinkFailure := by
  have h : (serialize ⟨[], some 0⟩ JValue.jnull).2 = some IoError.sinkFailure := by
    simp [serialize, visit_null, wWrite, strNull]
  exact (sink_failure_aborts JValue.jnull 0 IoError.sinkFailure h).2.1

/-- Claim C8: `to_string` runs `to_vec`, then returns the decoded text
when the bytes are valid UTF-8, a distinct invalid-text outcome carrying
exactly the produced bytes when they are not, and propagates a sink
failure from `to_vec` unchanged. -/
theorem to_string_utf8_dispatch :
    (∀ (budget : Option Nat) (v : JValue) (bs : List Nat),
      to_vec budget v = Except.ok bs → utf8Valid bs = true →
      to_string budget v = Except.ok (Except.ok bs)) ∧
    (∀ (budget : Option Nat) (v : JValue) (bs : List Nat),
      to_vec budget v = Except.ok bs → utf8Valid bs = false →
      to_string budget v = Except.ok (Except.error bs)) ∧
    (∀ (budget : Option Nat) (v : JValue) (e : IoError),
      to_vec budget v = Except.error e → to_string budget v = Except.error e) := by
  refine ⟨?_, ?_, ?_⟩
  · intro budget v bs h h2
    unfold to_string
    rw [h]
    simp [from_utf8, h2]
  · intro budget v bs h h2
    unfold to_string
    rw [h]
    simp [from_utf8, h2]
  · intro budget v e h
    unfold to_string
    rw [h]

theorem to_string_utf8_dispatch_witness :
    to_string none (JValue.jbool true) = Except.ok (Except.ok [116, 114, 117, 101]) := by
  refine to_string_utf8_dispatch.1 none (JValue.jbool true) [116, 114, 117, 101] ?_ (by decide)
  simp [to_vec, serialize, visit_bool, wWrite, strTrue]

/-- Claim C9: every integer visit, of every modelled width, writes the
plain decimal representation: a `-` prefix exactly for negatives, then
decimal digit bytes only, nonempty, with no leading zero except for the
single digit `0` itself; the width-specific visits all share the same
formatter. -/
theorem integer_visits_decimal :
    (∀ (d : List Nat) (v : Int),
      serialize ⟨d, none⟩ (JValue.jint v) = (⟨d ++ intDec v, none⟩, none)) ∧
    (∀ (d : List Nat) (n : Nat),
      serialize ⟨d, none⟩ (JValue.juint n) = (⟨d ++ natDec n, none⟩, none)) ∧
    (∀ v : Int, intDec v = (if v < 0 then [45] else []) ++ natDec v.natAbs) ∧
    (∀ n b, b ∈ natDec n → 48 ≤ b ∧ b ≤ 57) ∧
    (∀ n : Nat, natDec n ≠ []) ∧
    (∀ n : Nat, n ≠ 0 → ∀ d ∈ (natDec n).head?, 49 ≤ d ∧ d ≤ 57) ∧
    natDec 0 = [48] ∧
    (∀ w v, visit_i8 w v = visit_int w v) ∧
    (∀ w v, visit_i16 w v = visit_int w v) ∧
    (∀ w v, visit_i32 w v = visit_int w v) ∧
    (∀ w v, visit_i64 w v = visit_int w v) ∧
    (∀ w n, visit_u8 w n = visit_uint w n) ∧
    (∀ w n, visit_u16 w n = visit_uint w n) ∧
    (∀ w n, visit_u32 w n = visit_uint w n) ∧
    (∀ w n, visit_u64 w n = visit_uint w n) := by
  refine ⟨?_, ?_, ?_, fun n b hb => natDec_mem n b hb, natDec_ne_nil,
    fun n hn => natDec_no_leading_zero n hn, by simp [natDec],
    fun w v => rfl, fun w v => rfl, fun w v => rfl, fun w v => rfl,
    fun w n => rfl, fun w n => rfl, fun w n => rfl, fun w n => rfl⟩
  · intro d v
    have h := serialize_unbounded (JValue.jint v) d
    rwa [show jout (JValue.jint v) = intDec v from by simp only [jout]] at h
  · intro d n
    have h := serialize_unbounded (JValue.juint n) d
    rwa [show jout (JValue.juint n) = natDec n from by simp only [jout]] at h
  · intro v
    unfold intDec
    by_cases hv : v < 0
    · rw [if_pos hv, if_pos hv]
      rfl
    · rw [if_neg hv, if_neg hv]
      rfl

theorem integer_visits_decimal_witness :
    (48 ≤ 49 ∧ 49 ≤ 57) ∧ (49 ≤ 49 ∧ 49 ≤ 57) :=
  ⟨integer_visits_decimal.2.2.2.1 10 49 (by simp [natDec, natDigits.eq_def]),
   integer_visits_decimal.2.2.2.2.2.1 10 (by decide) 49 (by simp [natDec, natDigits.eq_def])⟩

/-- Claim C10: serialization is deterministic and depends only on the
visited value — the serializer appends a pure function `jout` of the
value to whatever the sink already holds, and `to_vec` / `to_string` on
the infallible buffer sink return exactly that output. -/
theorem serialization_deterministic :
    (∀ (v : JValue) (d : List Nat),
      serialize ⟨d, none⟩ v = (⟨d ++ jout v, none⟩, none)) ∧
    (∀ v : JValue, to_vec none v = Except.ok (jout v)) ∧
    (∀ v : JValue, to_string none v = Except.ok (from_utf8 (jout v))) :=
  ⟨fun v d => serialize_unbounded v d, to_vec_unbounded, to_string_unbounded⟩

end SerdeJson
